import Mathlib

/-! Verification of the parallel graph-operations core of the CSR graph
library (`src/graph_ops.rs`): greedy degree-balanced partitioning, slice
splitting, per-node iteration, and the degree-ordered relabel pipeline.

The graph is embedded through its adjacency lists; machine-integer node ids
(`Idx`) are embedded as `Nat` (all arithmetic in the source is on nonnegative
in-range values; the source treats overflow as a programmer error).  Rayon
parallel loops whose write destinations are pairwise disjoint are embedded as
the corresponding order-respecting functional maps.  `Range<Node>` is embedded
as a pair `(start, end)`. -/

namespace GraphOps

/-- Modelled from the spec (§3): the read interface of an undirected CSR
graph (`node_count`, `degree`, `neighbors`, `edge_count`); the CSR container
itself lives in `src/graph/csr.rs`, which is not part of the given sources.
The graph is carried by its adjacency lists. -/
structure UGraph where
  adj : List (List Nat)

def UGraph.node_count (g : UGraph) : Nat := g.adj.length

def UGraph.neighbors (g : UGraph) (v : Nat) : List Nat := g.adj.getD v []

def UGraph.degree (g : UGraph) (v : Nat) : Nat := (g.neighbors v).length

/-- Modelled from the spec (§3): for an undirected CSR graph the targets
array has length `2·|E|`, so `edge_count` is half the total adjacency length. -/
def UGraph.edge_count (g : UGraph) : Nat := (g.adj.map List.length).sum / 2

/-- Modelled from the spec (§3): the CSR container constructed from
`(offsets, targets)`; `neighbors(v) = targets[offsets[v]..offsets[v+1]]`. -/
structure Csr where
  offsets : List Nat
  targets : List Nat

def Csr.node_count (c : Csr) : Nat := c.offsets.length - 1

def Csr.degree (c : Csr) (v : Nat) : Nat := c.offsets.getD (v + 1) 0 - c.offsets.getD v 0

def Csr.neighbors (c : Csr) (v : Nat) : List Nat :=
  (c.targets.drop (c.offsets.getD v 0)).take (c.degree v)

/-- The `From<Csr<Node>>` conversion back into the abstract undirected graph
view: read off all adjacency lists. -/
def Csr.toUGraph (c : Csr) : UGraph := ⟨(List.range c.node_count).map c.neighbors⟩

/-- Modelled from the spec (§4.5 phase 3): the exclusive prefix sum
`offsets[0] = 0`, `offsets[i+1] = offsets[i] + degrees[i]`, of length `n + 1`
(`prefix_sum` lives in `src/graph/csr.rs`, not part of the given sources). -/
def prefix_sum : List Nat → List Nat
  | [] => [0]
  | x :: xs => 0 :: (prefix_sum xs).map (x + ·)

/-- The comparator of `sort_by_degree_desc`: `left.cmp(right).reverse()`, i.e.
the reversed natural lexicographic order on `(degree, node)` pairs.
`descPairLe a b` holds when `a` may stand before `b`. -/
def descPairLe (a b : Nat × Nat) : Prop := b.1 < a.1 ∨ (b.1 = a.1 ∧ b.2 ≤ a.2)

instance : DecidableRel descPairLe := fun a b => by
  unfold descPairLe
  exact inferInstance

instance : IsTotal (Nat × Nat) descPairLe :=
  ⟨by
    intro a b
    unfold descPairLe
    omega⟩

instance : IsTrans (Nat × Nat) descPairLe :=
  ⟨by
    intro a b c hab hbc
    unfold descPairLe at hab hbc ⊢
    omega⟩

/-- `sort_by_degree_desc` (graph_ops.rs:454): build all `(degree, node_id)`
pairs and sort by the reversed natural pair order.  The parallel unstable sort
is embedded as a sort with the same total order (the keys are distinct, so the
sorted result is unique). -/
def sort_by_degree_desc (g : UGraph) : List (Nat × Nat) :=
  List.insertionSort descPairLe ((List.range g.node_count).map (fun v => (g.degree v, v)))

/-- `unzip_degrees_and_nodes` (graph_ops.rs:476): `degrees[i]` is the degree
of the node with new id `i`; `nodes[old] = new`.  The parallel scatter
`nodes[pairs[i].1] = i` over the permutation of old ids is embedded as: the
new id of `old` is the index of the pair carrying `old`. -/
def unzip_degrees_and_nodes (pairs : List (Nat × Nat)) : List Nat × List Nat :=
  (pairs.map Prod.fst,
    (List.range pairs.length).map (fun v => (pairs.map Prod.snd).indexOf v))

/-- `relabel_targets` (graph_ops.rs:509): for each old node `u` (here listed
through the sorted pairs, whose `i`-th entry carries the old node with new id
`i`), map its neighbors through the id map and sort ascending.  The parallel
scatter into the disjoint ranges `[offsets[new_u], offsets[new_u] + degree u)`
carved by the prefix sum is embedded as concatenation in new-id order. -/
def relabel_targets (g : UGraph) (pairs : List (Nat × Nat)) (nodes : List Nat) : List Nat :=
  (pairs.map (fun p =>
    List.insertionSort (· ≤ ·) ((g.neighbors p.2).map (fun w => nodes.getD w 0)))).flatten

/-- `relabel_by_degree` (graph_ops.rs:428): the five-phase pipeline producing
the new CSR. -/
def relabel_by_degree (g : UGraph) : Csr :=
  let pairs := sort_by_degree_desc g
  let dn := unzip_degrees_and_nodes pairs
  { offsets := prefix_sum dn.1, targets := relabel_targets g pairs dn.2 }

/-- `RelabelByDegreeOp::to_degree_ordered` (graph_ops.rs:180). -/
def to_degree_ordered (g : UGraph) : UGraph := (relabel_by_degree g).toUGraph

/-- The id map `nodes` of the relabel pipeline: `(id_map g).getD old 0` is the
new id of `old`. -/
def id_map (g : UGraph) : List Nat := (unzip_degrees_and_nodes (sort_by_degree_desc g)).2

/-- The relabeled-and-sorted adjacency blocks in new-id order: block `i` is
the sorted image of the neighbors of the old node with new id `i`. -/
def blocksOf (g : UGraph) : List (List Nat) :=
  (sort_by_degree_desc g).map (fun p =>
    List.insertionSort (· ≤ ·) ((g.neighbors p.2).map (fun w => (id_map g).getD w 0)))

/-- The loop body of `greedy_node_map_partition` (graph_ops.rs:412-423),
iterating over the remaining nodes with the accumulated state
(`partitions`, `partition_size`, `partition_start`). -/
def greedy_go (node_map : Nat → Nat) (upper_bound batch_size max_batches : Nat) :
    List Nat → List (Nat × Nat) → Nat → Nat → List (Nat × Nat)
  | [], partitions, _, _ => partitions
  | node :: rest, partitions, partition_size, partition_start =>
    let size := partition_size + node_map node
    if (partitions.length < max_batches - 1 ∧ batch_size ≤ size) ∨ node = upper_bound then
      greedy_go node_map upper_bound batch_size max_batches rest
        (partitions ++ [(partition_start, node + 1)]) 0 (node + 1)
    else
      greedy_go node_map upper_bound batch_size max_batches rest partitions size partition_start

/-- `greedy_node_map_partition` (graph_ops.rs:396). -/
def greedy_node_map_partition (node_map : Nat → Nat)
    (node_count batch_size max_batches : Nat) : List (Nat × Nat) :=
  greedy_go node_map (node_count - 1) batch_size max_batches (List.range node_count) [] 0 0

/-- `DegreePartitionOp::degree_partition` (graph_ops.rs:282).  The `f64`
ceiling `((edge_count * 2) / concurrency).ceil()` is embedded as the exact
ceiling division on `Nat`. -/
def degree_partition (g : UGraph) (concurrency : Nat) : List (Nat × Nat) :=
  greedy_node_map_partition g.degree g.node_count
    ((2 * g.edge_count + concurrency - 1) / concurrency) concurrency

/-- The loop of `split_by_partition` (graph_ops.rs:377-387): walk the ranges,
carving `range.end - current_start` elements off the remaining slice each
step. -/
def split_go {T : Type} : List (Nat × Nat) → List T → Nat → List (List T)
  | [], _, _ => []
  | r :: rs, slice, current_start =>
    let next_end := r.2 - current_start
    slice.take next_end :: split_go rs (slice.drop next_end) (current_start + next_end)

/-- `split_by_partition` (graph_ops.rs:362). -/
def split_by_partition {T : Type} (partition : List (Nat × Nat)) (slice : List T) :
    List (List T) :=
  split_go partition slice 0

/-- The two error variants surfaced by the traversal operations. -/
inductive Error where
  | InvalidNodeValues
  | InvalidPartitioning
deriving DecidableEq

/-- Indexed map starting at index `k`: the functional rendering of an
in-place per-element update that receives each element's index. -/
def mapFrom {T : Type} (h : Nat → T → T) : Nat → List T → List T
  | _, [] => []
  | k, t :: ts => h k t :: mapFrom h (k + 1) ts

/-- `ForEachNodeOp::for_each_node` (graph_ops.rs:195): the parallel
`enumerate().for_each` over disjoint state cells, embedded as an indexed
map from 0. -/
def for_each_node {T : Type} (g : UGraph) (node_values : List T)
    (node_fn : UGraph → Nat → T → T) : Except Error (List T) :=
  if node_values.length ≠ g.node_count then Except.error Error.InvalidNodeValues
  else Except.ok (mapFrom (node_fn g) 0 node_values)

/-- One range's sequential loop in `for_each_node_by_partition`
(graph_ops.rs:251-253): zip the sub-buffer with `range.start..range.end` and
update each visited cell; cells past the zip are left as they were. -/
def run_range {T : Type} (g : UGraph) (node_fn : UGraph → Nat → T → T)
    (chunk : List T) (r : Nat × Nat) : List T :=
  ((chunk.zip (List.range' r.1 (r.2 - r.1))).map (fun p => node_fn g p.2 p.1))
    ++ chunk.drop (r.2 - r.1)

/-- `ForEachNodeByPartitionOp::for_each_node_by_partition`
(graph_ops.rs:225): validate the buffer and the partition sum, split the
buffer, run every range, and reassemble the buffer. -/
def for_each_node_by_partition {T : Type} (g : UGraph) (partition : List (Nat × Nat))
    (node_values : List T) (node_fn : UGraph → Nat → T → T) : Except Error (List T) :=
  if node_values.length ≠ g.node_count then Except.error Error.InvalidNodeValues
  else if (partition.map (fun r => r.2 - r.1)).sum ≠ g.node_count then
    Except.error Error.InvalidPartitioning
  else
    Except.ok (((split_by_partition partition node_values).zip partition).map
      (fun p => run_range g node_fn p.1 p.2)).flatten

/-- A well-formed partition piece: `chain_from s P e` says the ranges of `P`
are consecutive half-open ranges (`start ≤ end`) running from `s` to `e`. -/
def chain_from : Nat → List (Nat × Nat) → Nat → Prop
  | s, [], e => s = e
  | s, r :: rs, e => r.1 = s ∧ s ≤ r.2 ∧ chain_from r.2 rs e

/-- Total cost of the nodes of the half-open range `[s, e)`. -/
def rangeCost (f : Nat → Nat) (s e : Nat) : Nat := ((List.range' s (e - s)).map f).sum

/-- Modelled from the spec (§4.1): the single streaming pass, written as the
spec states it — scan `v` upward, accumulate `cost v`, and close `[start, v+1)`
exactly when `(|out| < max_batches - 1 ∧ accum ≥ batch_size) ∨ v = n - 1`,
resetting the accumulator.  The first argument after the parameters is the
number of steps left. -/
def spec_scan (cost : Nat → Nat) (n batch_size max_batches : Nat) :
    Nat → Nat → Nat → Nat → List (Nat × Nat) → List (Nat × Nat)
  | 0, _, _, _, out => out
  | fuel + 1, v, accum, start, out =>
    let accum' := accum + cost v
    if (out.length < max_batches - 1 ∧ batch_size ≤ accum') ∨ v = n - 1 then
      spec_scan cost n batch_size max_batches fuel (v + 1) 0 (v + 1) (out ++ [(start, v + 1)])
    else
      spec_scan cost n batch_size max_batches fuel (v + 1) accum' start out

/-- Modelled from the spec (§4.1): `greedy_partition(cost_fn, n, batch_size,
max_batches)` as the spec's streaming pass over `v = 0 … n-1`. -/
def spec_greedy_partition (cost : Nat → Nat) (n batch_size max_batches : Nat) :
    List (Nat × Nat) :=
  spec_scan cost n batch_size max_batches n 0 0 0 []

/-- The graph of scenario S6 (edges `(0,1),(1,2),(1,3),(2,0),(2,1),(2,3),(3,0),(3,2)`,
each endpoint occurrence listed). -/
def exampleS6 : UGraph := ⟨[[1, 2, 3], [0, 2, 2, 3], [0, 1, 1, 3, 3], [0, 1, 2, 2]]⟩

/-- The multigraph of scenario S5 (edges `(0,1),(0,2),(0,3),(0,3)`). -/
def exampleS5 : UGraph := ⟨[[1, 2, 3, 3], [0], [0], [0, 0]]⟩

/-- Undirected multigraph on edges `(0,1),(0,1),(0,2),(0,3),(1,2),(2,3)`:
node 0 has two parallel edges to node 1 but only one to the equal-degree
node 2. -/
def exampleTie : UGraph := ⟨[[1, 1, 2, 3], [0, 0, 2], [0, 1, 3], [0, 2]]⟩

/-- Two isolated nodes. -/
def exampleNoEdges : UGraph := ⟨[[], []]⟩

/-- One isolated node. -/
def exampleOneNode : UGraph := ⟨[[]]⟩

example : sort_by_degree_desc exampleS6 = [(5, 2), (4, 3), (4, 1), (3, 0)] := by decide

example : unzip_degrees_and_nodes [(5, 2), (4, 3), (4, 1), (3, 0)] =
    ([5, 4, 4, 3], [3, 2, 0, 1]) := by decide

example : (to_degree_ordered exampleS6).adj =
    [[1, 1, 2, 2, 3], [0, 0, 2, 3], [0, 0, 1, 3], [0, 1, 2]] := by decide

example : degree_partition exampleS5 2 = [(0, 1), (1, 4)] := by decide

example : greedy_node_map_partition (fun x => x) 10 6 99999 =
    [(0, 4), (4, 6), (6, 7), (7, 8), (8, 9), (9, 10)] := by decide

example : greedy_node_map_partition (fun x => x) 10 6 3 = [(0, 4), (4, 6), (6, 10)] := by decide

example : (to_degree_ordered (to_degree_ordered exampleTie)).adj ≠
    (to_degree_ordered exampleTie).adj := by decide

example : degree_partition exampleOneNode 1 = [(0, 1)] := by decide

example : degree_partition exampleNoEdges 3 = [(0, 1), (1, 2)] := by decide

/-! ### List plumbing lemmas -/

theorem getD_map_lt {α β : Type} (f : α → β) (l : List α) (i : Nat) (d : β) (d' : α)
    (h : i < l.length) : (l.map f).getD i d = f (l.getD i d') := by
  rw [List.getD_eq_getElem _ _ (by simpa using h), List.getD_eq_getElem _ _ h, List.getElem_map]

theorem getD_map_range {α : Type} (h : Nat → α) (n v : Nat) (d : α) (hv : v < n) :
    ((List.range n).map h).getD v d = h v := by
  rw [getD_map_lt h (List.range n) v d 0 (by simpa using hv)]
  congr 1
  rw [List.getD_eq_getElem _ _ (by simpa using hv), List.getElem_range]

theorem range_map_getD {α : Type} (l : List α) (d : α) :
    (List.range l.length).map (fun v => l.getD v d) = l := by
  apply List.ext_getElem
  · simp
  · intro i h1 h2
    simp only [List.getElem_map, List.getElem_range]
    exact List.getD_eq_getElem l d h2

theorem prefix_sum_length (L : List Nat) : (prefix_sum L).length = L.length + 1 := by
  induction L with
  | nil => rfl
  | cons x xs ih => simp [prefix_sum, ih]

theorem prefix_sum_getD_zero (L : List Nat) : (prefix_sum L).getD 0 0 = 0 := by
  cases L <;> rfl

theorem prefix_sum_getD_succ (x : Nat) (xs : List Nat) (j : Nat) (hj : j < xs.length + 1) :
    (prefix_sum (x :: xs)).getD (j + 1) 0 = x + (prefix_sum xs).getD j 0 := by
  show ((0 : Nat) :: (prefix_sum xs).map (x + ·)).getD (j + 1) 0 = _
  rw [List.getD_cons_succ]
  exact getD_map_lt _ _ j 0 0 (by rw [prefix_sum_length]; omega)

/-- Reading a CSR built from per-node blocks and their length prefix sum
recovers exactly the blocks. -/
theorem csr_blocks (blocks : List (List Nat)) (i : Nat) (h : i < blocks.length) :
    Csr.neighbors ⟨prefix_sum (blocks.map List.length), blocks.flatten⟩ i = blocks.getD i [] ∧
      Csr.degree ⟨prefix_sum (blocks.map List.length), blocks.flatten⟩ i =
        (blocks.getD i []).length := by
  induction blocks generalizing i with
  | nil => simp at h
  | cons b bs ih =>
    have hps : (prefix_sum (bs.map List.length)).length = bs.length + 1 := by
      simp [prefix_sum_length]
    have hmcons : (b :: bs).map List.length = b.length :: bs.map List.length := rfl
    cases i with
    | zero =>
      have h1 : (prefix_sum ((b :: bs).map List.length)).getD 1 0 = b.length := by
        rw [hmcons, prefix_sum_getD_succ b.length (bs.map List.length) 0 (by simp),
          prefix_sum_getD_zero]
        omega
      have h0 : (prefix_sum ((b :: bs).map List.length)).getD 0 0 = 0 := prefix_sum_getD_zero _
      have hdeg0 : Csr.degree ⟨prefix_sum ((b :: bs).map List.length), (b :: bs).flatten⟩ 0 =
          b.length := by
        simp only [Csr.degree, h1, h0]
        omega
      refine ⟨?_, ?_⟩
      · show ((((b :: bs).flatten).drop _).take _) = _
        rw [hdeg0, h0, List.drop_zero]
        show ((b ++ bs.flatten).take b.length) = _
        rw [List.take_left]
        rfl
      · rw [hdeg0]
        rfl
    | succ i =>
      have hi : i < bs.length := by simpa using h
      have hoff : ∀ j, j < bs.length + 1 →
          (prefix_sum ((b :: bs).map List.length)).getD (j + 1) 0 =
            b.length + (prefix_sum (bs.map List.length)).getD j 0 := by
        intro j hj
        rw [hmcons, prefix_sum_getD_succ b.length (bs.map List.length) j (by simpa using hj)]
      have hdeg : Csr.degree ⟨prefix_sum ((b :: bs).map List.length), (b :: bs).flatten⟩ (i + 1) =
          Csr.degree ⟨prefix_sum (bs.map List.length), bs.flatten⟩ i := by
        simp only [Csr.degree, hoff i (by omega), hoff (i + 1) (by omega)]
        omega
      have hdrop : ((b :: bs).flatten).drop
          ((prefix_sum ((b :: bs).map List.length)).getD (i + 1) 0) =
          (bs.flatten).drop ((prefix_sum (bs.map List.length)).getD i 0) := by
        rw [hoff i (by omega)]
        show (b ++ bs.flatten).drop _ = _
        rw [← List.drop_drop, List.drop_left]
      refine ⟨?_, ?_⟩
      · show ((((b :: bs).flatten).drop _).take _) = _
        rw [hdrop, hdeg]
        exact (ih i hi).1
      · rw [hdeg]
        exact (ih i hi).2

/-! ### The sorted degree-node pairs -/

theorem pairs_perm (g : UGraph) :
    (sort_by_degree_desc g).Perm
      ((List.range g.node_count).map (fun v => (g.degree v, v))) :=
  List.perm_insertionSort descPairLe _

theorem pairs_length (g : UGraph) : (sort_by_degree_desc g).length = g.node_count := by
  simp [sort_by_degree_desc, List.length_insertionSort]

theorem pairs_sorted (g : UGraph) : List.Sorted descPairLe (sort_by_degree_desc g) :=
  List.sorted_insertionSort descPairLe _

theorem mem_pairs {g : UGraph} {p : Nat × Nat} (hp : p ∈ sort_by_degree_desc g) :
    p.1 = g.degree p.2 ∧ p.2 < g.node_count := by
  have hmem := (pairs_perm g).mem_iff.mp hp
  simp only [List.mem_map, List.mem_range] at hmem
  obtain ⟨v, hv, hveq⟩ := hmem
  constructor
  · rw [← hveq]
  · rw [← hveq]
    exact hv

theorem snds_perm (g : UGraph) :
    ((sort_by_degree_desc g).map Prod.snd).Perm (List.range g.node_count) := by
  have h := (pairs_perm g).map Prod.snd
  simpa [List.map_map, Function.comp_def] using h

theorem pairs_at_indexOf {g : UGraph} {v : Nat} (hv : v < g.node_count) :
    ((sort_by_degree_desc g).map Prod.snd).indexOf v < g.node_count ∧
      (sort_by_degree_desc g).getD (((sort_by_degree_desc g).map Prod.snd).indexOf v) (0, 0) =
        (g.degree v, v) := by
  have hvmem : v ∈ (sort_by_degree_desc g).map Prod.snd :=
    (snds_perm g).mem_iff.mpr (List.mem_range.mpr hv)
  have hlt : ((sort_by_degree_desc g).map Prod.snd).indexOf v <
      ((sort_by_degree_desc g).map Prod.snd).length :=
    List.indexOf_lt_length.mpr hvmem
  have hlen : ((sort_by_degree_desc g).map Prod.snd).length = g.node_count := by
    simp [pairs_length]
  have hlt' : ((sort_by_degree_desc g).map Prod.snd).indexOf v <
      (sort_by_degree_desc g).length := by
    rw [pairs_length]
    omega
  refine ⟨by omega, ?_⟩
  have hget := List.indexOf_get hlt
  rw [List.get_eq_getElem, List.getElem_map] at hget
  have hp := mem_pairs (List.getElem_mem hlt')
  rw [List.getD_eq_getElem _ _ hlt']
  have heta : (sort_by_degree_desc g)[((sort_by_degree_desc g).map Prod.snd).indexOf v] =
      ((sort_by_degree_desc g)[((sort_by_degree_desc g).map Prod.snd).indexOf v].1,
        (sort_by_degree_desc g)[((sort_by_degree_desc g).map Prod.snd).indexOf v].2) := rfl
  rw [heta, hget, hp.1, hget]

theorem id_map_getD {g : UGraph} {v : Nat} (hv : v < g.node_count) :
    (id_map g).getD v 0 = ((sort_by_degree_desc g).map Prod.snd).indexOf v := by
  show ((List.range (sort_by_degree_desc g).length).map _).getD v 0 = _
  rw [pairs_length]
  exact getD_map_range _ _ _ _ hv

/-! ### The relabel pipeline -/

theorem blocks_length_eq (g : UGraph) :
    (blocksOf g).map List.length = (sort_by_degree_desc g).map Prod.fst := by
  unfold blocksOf
  rw [List.map_map]
  apply List.map_congr_left
  intro p hp
  have h := mem_pairs hp
  simp only [Function.comp_apply, List.length_insertionSort, List.length_map]
  exact h.1.symm

theorem relabel_eq_blocks (g : UGraph) :
    relabel_by_degree g =
      { offsets := prefix_sum ((blocksOf g).map List.length),
        targets := (blocksOf g).flatten } := by
  have hoff : (unzip_degrees_and_nodes (sort_by_degree_desc g)).1 =
      (blocksOf g).map List.length := by
    rw [blocks_length_eq]
    rfl
  show ({ offsets := prefix_sum ((unzip_degrees_and_nodes (sort_by_degree_desc g)).1),
          targets := relabel_targets g (sort_by_degree_desc g)
            ((unzip_degrees_and_nodes (sort_by_degree_desc g)).2) } : Csr) = _
  rw [hoff]
  rfl

theorem toUGraph_node_count (c : Csr) : (Csr.toUGraph c).node_count = c.node_count := by
  simp [Csr.toUGraph, UGraph.node_count]

theorem toUGraph_neighbors (c : Csr) (v : Nat) (hv : v < c.node_count) :
    (Csr.toUGraph c).neighbors v = c.neighbors v := by
  unfold Csr.toUGraph UGraph.neighbors
  exact getD_map_range _ _ _ _ hv

theorem blocks_length (g : UGraph) : (blocksOf g).length = g.node_count := by
  simp [blocksOf, pairs_length]

theorem relabel_node_count (g : UGraph) : (relabel_by_degree g).node_count = g.node_count := by
  rw [relabel_eq_blocks]
  show (prefix_sum ((blocksOf g).map List.length)).length - 1 = _
  rw [prefix_sum_length]
  simp [blocks_length]

theorem to_degree_ordered_node_count (g : UGraph) :
    (to_degree_ordered g).node_count = g.node_count := by
  unfold to_degree_ordered
  rw [toUGraph_node_count, relabel_node_count]

theorem relabel_block_at (g : UGraph) (v : Nat) (hv : v < g.node_count) :
    (to_degree_ordered g).neighbors ((id_map g).getD v 0) =
      List.insertionSort (· ≤ ·) ((g.neighbors v).map (fun w => (id_map g).getD w 0)) := by
  obtain ⟨hidx, hpair⟩ := pairs_at_indexOf hv
  rw [id_map_getD hv]
  have hin : ((sort_by_degree_desc g).map Prod.snd).indexOf v <
      (relabel_by_degree g).node_count := by
    rw [relabel_node_count]
    exact hidx
  unfold to_degree_ordered
  rw [toUGraph_neighbors _ _ hin]
  have hblen : ((sort_by_degree_desc g).map Prod.snd).indexOf v < (blocksOf g).length := by
    rw [blocks_length]
    exact hidx
  rw [relabel_eq_blocks, (csr_blocks (blocksOf g) _ hblen).1]
  have hgetD : (blocksOf g).getD (((sort_by_degree_desc g).map Prod.snd).indexOf v) [] =
      (fun p => List.insertionSort (· ≤ ·)
        ((g.neighbors p.2).map (fun w => (id_map g).getD w 0)))
        ((sort_by_degree_desc g).getD (((sort_by_degree_desc g).map Prod.snd).indexOf v)
          (0, 0)) :=
    getD_map_lt _ _ _ [] (0, 0) (by rw [pairs_length]; exact hidx)
  rw [hgetD, hpair]

theorem relabel_degree_at (g : UGraph) (v : Nat) (hv : v < g.node_count) :
    (to_degree_ordered g).degree ((id_map g).getD v 0) = g.degree v := by
  show ((to_degree_ordered g).neighbors ((id_map g).getD v 0)).length = (g.neighbors v).length
  rw [relabel_block_at g v hv, List.length_insertionSort, List.length_map]

theorem adj_map_length_blocks (g : UGraph) :
    (to_degree_ordered g).adj.map List.length = (blocksOf g).map List.length := by
  unfold to_degree_ordered Csr.toUGraph
  show ((List.range (relabel_by_degree g).node_count).map
    (Csr.neighbors (relabel_by_degree g))).map List.length = _
  rw [List.map_map]
  have hnc : (relabel_by_degree g).node_count = (blocksOf g).length := by
    rw [relabel_node_count, blocks_length]
  rw [hnc]
  have hpt : ∀ i ∈ List.range (blocksOf g).length,
      (List.length ∘ Csr.neighbors (relabel_by_degree g)) i =
        (fun j => ((blocksOf g).map List.length).getD j 0) i := by
    intro i hi
    have hib : i < (blocksOf g).length := List.mem_range.mp hi
    simp only [Function.comp_apply]
    rw [relabel_eq_blocks, (csr_blocks (blocksOf g) i hib).1,
      getD_map_lt List.length (blocksOf g) i 0 [] hib]
  rw [List.map_congr_left hpt]
  have hlen : (blocksOf g).length = ((blocksOf g).map List.length).length := by simp
  rw [hlen, range_map_getD]

theorem orig_map_fst (g : UGraph) :
    ((List.range g.node_count).map (fun v => (g.degree v, v))).map Prod.fst =
      g.adj.map List.length := by
  rw [List.map_map]
  have h2 : (List.range g.node_count).map (Prod.fst ∘ fun v => (g.degree v, v)) =
      ((List.range g.node_count).map (fun v => g.adj.getD v [])).map List.length := by
    rw [List.map_map]
    rfl
  rw [h2]
  have h3 : (List.range g.node_count).map (fun v => g.adj.getD v []) = g.adj :=
    range_map_getD g.adj []
  rw [h3]

theorem to_degree_ordered_edge_count (g : UGraph) :
    (to_degree_ordered g).edge_count = g.edge_count := by
  unfold UGraph.edge_count
  congr 1
  rw [adj_map_length_blocks, blocks_length_eq]
  rw [((pairs_perm g).map Prod.fst).sum_eq, orig_map_fst]

/-! ### The tie break of the reversed-lexicographic sort -/

theorem tie_break_universal (g : UGraph) (u v : Nat) (huv : u < v) (hv : v < g.node_count)
    (hdeg : g.degree u = g.degree v) :
    (id_map g).getD v 0 < (id_map g).getD u 0 := by
  have hu : u < g.node_count := by omega
  obtain ⟨hiu, hpu⟩ := pairs_at_indexOf hu
  obtain ⟨hiv, hpv⟩ := pairs_at_indexOf hv
  rw [id_map_getD hu, id_map_getD hv]
  have hri : ((sort_by_degree_desc g).map Prod.snd).indexOf u <
      (sort_by_degree_desc g).length := by
    rw [pairs_length]
    exact hiu
  have hrj : ((sort_by_degree_desc g).map Prod.snd).indexOf v <
      (sort_by_degree_desc g).length := by
    rw [pairs_length]
    exact hiv
  by_contra hcon
  push_neg at hcon
  have hne : ((sort_by_degree_desc g).map Prod.snd).indexOf u ≠
      ((sort_by_degree_desc g).map Prod.snd).indexOf v := by
    intro he
    rw [he, hpv] at hpu
    have := congrArg Prod.snd hpu
    simp at this
    omega
  have hij : ((sort_by_degree_desc g).map Prod.snd).indexOf u <
      ((sort_by_degree_desc g).map Prod.snd).indexOf v := by omega
  have hrel := (pairs_sorted g).rel_get_of_lt
    (a := ⟨((sort_by_degree_desc g).map Prod.snd).indexOf u, hri⟩)
    (b := ⟨((sort_by_degree_desc g).map Prod.snd).indexOf v, hrj⟩)
    (Fin.mk_lt_mk.mpr hij)
  rw [List.get_eq_getElem, List.get_eq_getElem,
    ← List.getD_eq_getElem _ (0, 0) hri, ← List.getD_eq_getElem _ (0, 0) hrj,
    hpu, hpv] at hrel
  simp only [descPairLe] at hrel
  omega

/-! ### Degree sequence of the relabeled graph -/

instance : IsAntisymm Nat (fun a b : Nat => b ≤ a) :=
  ⟨fun a b h1 h2 => Nat.le_antisymm h2 h1⟩

theorem pairs_map_fst_sorted (g : UGraph) :
    List.Sorted (fun a b : Nat => b ≤ a) ((sort_by_degree_desc g).map Prod.fst) :=
  List.Pairwise.map Prod.fst
    (fun a b hab => by
      simp only [descPairLe] at hab
      omega)
    (pairs_sorted g)

theorem degrees_sorted_desc (g : UGraph) :
    List.Sorted (fun a b : Nat => b ≤ a) ((to_degree_ordered g).adj.map List.length) := by
  rw [adj_map_length_blocks, blocks_length_eq]
  exact pairs_map_fst_sorted g

theorem pairs_fst_of_sorted (h : UGraph)
    (hs : List.Sorted (fun a b : Nat => b ≤ a) (h.adj.map List.length)) :
    (sort_by_degree_desc h).map Prod.fst = h.adj.map List.length := by
  apply List.eq_of_perm_of_sorted (r := fun a b : Nat => b ≤ a)
  · rw [← orig_map_fst h]
    exact (pairs_perm h).map Prod.fst
  · exact pairs_map_fst_sorted h
  · exact hs

theorem adj_map_length_idem (g : UGraph) :
    (to_degree_ordered (to_degree_ordered g)).adj.map List.length =
      (to_degree_ordered g).adj.map List.length := by
  rw [adj_map_length_blocks (to_degree_ordered g), blocks_length_eq (to_degree_ordered g)]
  exact pairs_fst_of_sorted (to_degree_ordered g) (degrees_sorted_desc g)

theorem degree_eq_of_map_length {l1 l2 : List (List Nat)}
    (h : l1.map List.length = l2.map List.length) (i : Nat) :
    (l1.getD i []).length = (l2.getD i []).length := by
  have hlen : l1.length = l2.length := by
    have := congrArg List.length h
    simpa using this
  by_cases hi : i < l1.length
  · rw [← getD_map_lt List.length l1 i 0 [] hi, ← getD_map_lt List.length l2 i 0 [] (by omega), h]
  · rw [List.getD_eq_default _ _ (by omega), List.getD_eq_default _ _ (by omega)]

/-! ### The greedy partition loop -/

theorem chain_from_nil {s e : Nat} (h : chain_from s [] e) : s = e := h

theorem chain_from_append {a b c : Nat} {ps : List (Nat × Nat)} (h : chain_from a ps b)
    (hbc : b ≤ c) : chain_from a (ps ++ [(b, c)]) c := by
  induction ps generalizing a with
  | nil =>
    have hab : a = b := h
    exact ⟨hab.symm, by omega, rfl⟩
  | cons r rs ih =>
    obtain ⟨h1, h2, h3⟩ := h
    exact ⟨h1, h2, ih h3⟩

theorem chain_from_le {ps : List (Nat × Nat)} : ∀ {s e : Nat}, chain_from s ps e → s ≤ e := by
  induction ps with
  | nil =>
    intro s e h
    exact Nat.le_of_eq h
  | cons r rs ih =>
    intro s e h
    obtain ⟨h1, h2, h3⟩ := h
    have := ih h3
    omega

theorem chain_from_sum {ps : List (Nat × Nat)} : ∀ {s e : Nat}, chain_from s ps e →
    (ps.map (fun r => r.2 - r.1)).sum = e - s := by
  induction ps with
  | nil =>
    intro s e h
    have : s = e := h
    simp [this]
  | cons r rs ih =>
    intro s e h
    obtain ⟨h1, h2, h3⟩ := h
    have h4 := ih h3
    have h5 := chain_from_le h3
    rw [List.map_cons, List.sum_cons, h4, h1]
    omega

theorem rangeCost_self (f : Nat → Nat) (s : Nat) : rangeCost f s s = 0 := by
  simp [rangeCost]

theorem rangeCost_succ (f : Nat → Nat) (s v : Nat) (h : s ≤ v) :
    rangeCost f s (v + 1) = rangeCost f s v + f v := by
  unfold rangeCost
  have h1 : v + 1 - s = (v - s) + 1 := by omega
  have h2 : s + 1 * (v - s) = v := by omega
  rw [h1, List.range'_concat, h2, List.map_append, List.sum_append]
  simp

/-- Master invariant of the greedy loop: starting from a well-formed state,
the loop returns at most `maxb` contiguous ranges covering `[0, n)`, and
every returned range except the last was closed with accumulated cost at
least `batch`. -/
theorem greedy_go_spec (f : Nat → Nat) (n batch maxb : Nat) :
    ∀ (k : Nat) (v : Nat) (parts : List (Nat × Nat)) (size start : Nat),
      1 ≤ k → v + k = n → start ≤ v → size = rangeCost f start v →
      chain_from 0 parts start →
      (∀ r ∈ parts, batch ≤ rangeCost f r.1 r.2) →
      parts.length + 1 ≤ maxb →
      (greedy_go f (n - 1) batch maxb (List.range' v k) parts size start).length ≤ maxb ∧
        chain_from 0 (greedy_go f (n - 1) batch maxb (List.range' v k) parts size start) n ∧
        ∀ r ∈ (greedy_go f (n - 1) batch maxb (List.range' v k) parts size start).dropLast,
          batch ≤ rangeCost f r.1 r.2 := by
  intro k
  induction k with
  | zero =>
    intro v parts size start hk
    omega
  | succ k ih =>
    intro v parts size start hk hvk hsv hsize hchain hbatch hlen
    rw [List.range'_succ]
    simp only [greedy_go]
    cases Nat.eq_zero_or_pos k with
    | inl hk0 =>
      subst hk0
      have hvn : v = n - 1 := by omega
      rw [if_pos (Or.inr hvn)]
      simp only [List.range'_zero, greedy_go]
      have hv1 : v + 1 = n := by omega
      rw [hv1]
      refine ⟨?_, ?_, ?_⟩
      · simp only [List.length_append, List.length_cons, List.length_nil]
        omega
      · exact chain_from_append hchain (by omega)
      · rw [List.dropLast_concat]
        exact hbatch
    | inr hk1 =>
      have hne : v ≠ n - 1 := by omega
      by_cases hc : parts.length < maxb - 1 ∧ batch ≤ size + f v
      · rw [if_pos (Or.inl hc)]
        have hclose : batch ≤ rangeCost f start (v + 1) := by
          rw [rangeCost_succ f start v hsv, ← hsize]
          exact hc.2
        refine ih (v + 1) (parts ++ [(start, v + 1)]) 0 (v + 1) (by omega) (by omega)
          (by omega) (rangeCost_self f (v + 1)).symm
          (chain_from_append hchain (by omega)) ?_ ?_
        · intro r hr
          rcases List.mem_append.mp hr with hr1 | hr2
          · exact hbatch r hr1
          · have : r = (start, v + 1) := by simpa using hr2
            rw [this]
            exact hclose
        · simp only [List.length_append, List.length_cons, List.length_nil]
          omega
      · rw [if_neg (by
          intro hor
          rcases hor with h1 | h2
          · exact hc h1
          · exact hne h2)]
        refine ih (v + 1) parts (size + f v) start (by omega) (by omega) (by omega) ?_
          hchain hbatch hlen
        rw [rangeCost_succ f start v hsv, ← hsize]

theorem degree_partition_batch (g : UGraph) (c : Nat) :
    degree_partition g c =
      greedy_node_map_partition g.degree g.node_count
        ((2 * g.edge_count + c - 1) / c) c := rfl

/-- Saturated loop: once the closing guard can no longer fire, the remaining
nodes all fall into one final range ending at `n`. -/
theorem greedy_go_saturated (f : Nat → Nat) (n batch maxb : Nat) :
    ∀ (k : Nat) (v : Nat) (parts : List (Nat × Nat)) (size start : Nat),
      1 ≤ k → v + k = n → ¬parts.length < maxb - 1 →
      greedy_go f (n - 1) batch maxb (List.range' v k) parts size start =
        parts ++ [(start, n)] := by
  intro k
  induction k with
  | zero =>
    intro v parts size start hk
    omega
  | succ k ih =>
    intro v parts size start hk hvk hsat
    rw [List.range'_succ]
    simp only [greedy_go]
    cases Nat.eq_zero_or_pos k with
    | inl hk0 =>
      subst hk0
      have hvn : v = n - 1 := by omega
      rw [if_pos (Or.inr hvn)]
      simp only [List.range'_zero, greedy_go]
      have hv1 : v + 1 = n := by omega
      rw [hv1]
    | inr hk1 =>
      have hne : v ≠ n - 1 := by omega
      rw [if_neg (by
        intro hor
        rcases hor with h1 | h2
        · exact hsat h1.1
        · exact hne h2)]
      exact ih (v + 1) parts (size + f v) start (by omega) (by omega) hsat

/-- With `batch_size = 0` the guard fires at every node while fewer than
`max_batches - 1` ranges exist: the loop emits singleton ranges and then one
final range ending at `n`. -/
theorem greedy_go_zero_batch (f : Nat → Nat) (n maxb : Nat) :
    ∀ (k : Nat) (v : Nat) (parts : List (Nat × Nat)),
      1 ≤ k → v + k = n →
      greedy_go f (n - 1) 0 maxb (List.range' v k) parts 0 v =
        parts ++ ((List.range' v (min (k - 1) (maxb - 1 - parts.length))).map
            (fun i => (i, i + 1)) ++
          [(v + min (k - 1) (maxb - 1 - parts.length), n)]) := by
  intro k
  induction k with
  | zero =>
    intro v parts hk
    omega
  | succ k ih =>
    intro v parts hk hvk
    rw [List.range'_succ]
    simp only [greedy_go]
    cases Nat.eq_zero_or_pos k with
    | inl hk0 =>
      subst hk0
      have hvn : v = n - 1 := by omega
      rw [if_pos (Or.inr hvn)]
      simp only [List.range'_zero, greedy_go]
      have hv1 : v + 1 = n := by omega
      have hm : min (0 + 1 - 1) (maxb - 1 - parts.length) = 0 := by omega
      rw [hm, hv1]
      simp
    | inr hk1 =>
      have hne : v ≠ n - 1 := by omega
      by_cases hsat : parts.length < maxb - 1
      · rw [if_pos (Or.inl ⟨hsat, by omega⟩)]
        rw [ih (v + 1) (parts ++ [(v, v + 1)]) (by omega) (by omega)]
        have hm : min (k + 1 - 1) (maxb - 1 - parts.length) =
            min (k - 1) (maxb - 1 - (parts ++ [(v, v + 1)]).length) + 1 := by
          simp only [List.length_append, List.length_cons, List.length_nil]
          omega
        rw [hm, List.range'_succ, List.append_assoc]
        simp only [List.map_cons, List.cons_append, List.nil_append]
        have hv2 : v + (min (k - 1) (maxb - 1 - (parts ++ [(v, v + 1)]).length) + 1) =
            v + 1 + min (k - 1) (maxb - 1 - (parts ++ [(v, v + 1)]).length) := by omega
        rw [hv2]
      · rw [if_neg (by
          intro hor
          rcases hor with h1 | h2
          · exact hsat h1.1
          · exact hne h2)]
        rw [greedy_go_saturated f n 0 maxb k (v + 1) parts (0 + f v) v (by omega) (by omega) hsat]
        have hm0 : min (k + 1 - 1) (maxb - 1 - parts.length) = 0 := by omega
        rw [hm0]
        simp

/-- The source loop and the spec's streaming pass step identically. -/
theorem greedy_go_eq_spec_scan (cost : Nat → Nat) (n batch maxb : Nat) :
    ∀ (fuel v accum start : Nat) (out : List (Nat × Nat)),
      greedy_go cost (n - 1) batch maxb (List.range' v fuel) out accum start =
        spec_scan cost n batch maxb fuel v accum start out := by
  intro fuel
  induction fuel with
  | zero =>
    intro v accum start out
    simp [greedy_go, spec_scan]
  | succ fuel ih =>
    intro v accum start out
    rw [List.range'_succ]
    simp only [greedy_go, spec_scan]
    by_cases hc : (out.length < maxb - 1 ∧ batch ≤ accum + cost v) ∨ v = n - 1
    · rw [if_pos hc, if_pos hc, ih]
    · rw [if_neg hc, if_neg hc, ih]

/-! ### Buffer splitting and per-node traversal -/

theorem mapFrom_length {T : Type} (h : Nat → T → T) (k : Nat) (L : List T) :
    (mapFrom h k L).length = L.length := by
  induction L generalizing k with
  | nil => rfl
  | cons t ts ih => simp [mapFrom, ih]

theorem mapFrom_getD {T : Type} (h : Nat → T → T) (k v : Nat) (L : List T) (d : T)
    (hv : v < L.length) : (mapFrom h k L).getD v d = h (k + v) (L.getD v d) := by
  induction L generalizing k v with
  | nil => simp at hv
  | cons t ts ih =>
    cases v with
    | zero => simp [mapFrom]
    | succ v =>
      simp only [mapFrom, List.getD_cons_succ]
      rw [ih (k + 1) v (by simpa using hv)]
      congr 1
      omega

theorem mapFrom_append {T : Type} (h : Nat → T → T) (k : Nat) (A B : List T) :
    mapFrom h k (A ++ B) = mapFrom h k A ++ mapFrom h (k + A.length) B := by
  induction A generalizing k with
  | nil => simp [mapFrom]
  | cons t ts ih =>
    show h k t :: mapFrom h (k + 1) (ts ++ B) =
      h k t :: (mapFrom h (k + 1) ts ++ mapFrom h (k + (t :: ts).length) B)
    rw [ih (k + 1), show k + 1 + ts.length = k + (t :: ts).length from by simp; omega]

theorem zip_range'_map {T : Type} (h : Nat → T → T) :
    ∀ (L : List T) (s : Nat),
      (L.zip (List.range' s L.length)).map (fun p => h p.2 p.1) = mapFrom h s L := by
  intro L
  induction L with
  | nil =>
    intro s
    rfl
  | cons t ts ih =>
    intro s
    rw [show (t :: ts).length = ts.length + 1 from rfl, List.range'_succ, List.zip_cons_cons,
      List.map_cons, ih]
    rfl

theorem zip_range'_map_of_length {T : Type} (h : Nat → T → T) (L : List T) (s m : Nat)
    (hm : L.length = m) :
    (L.zip (List.range' s m)).map (fun p => h p.2 p.1) = mapFrom h s L := by
  subst hm
  exact zip_range'_map h L s

theorem split_go_spec {T : Type} :
    ∀ (P : List (Nat × Nat)) (c e : Nat) (slice : List T),
      chain_from c P e → slice.length = e - c →
      (split_go P slice c).length = P.length ∧
        (split_go P slice c).map List.length = P.map (fun r => r.2 - r.1) ∧
        (split_go P slice c).flatten = slice := by
  intro P
  induction P with
  | nil =>
    intro c e slice hch hlen
    have hce : c = e := hch
    have h0 : slice.length = 0 := by omega
    refine ⟨rfl, rfl, ?_⟩
    simp [split_go, (List.length_eq_zero.mp h0)]
  | cons r rs ih =>
    intro c e slice hch hlen
    obtain ⟨h1, h2, h3⟩ := hch
    have hre : r.2 ≤ e := chain_from_le h3
    have hcs : c + (r.2 - c) = r.2 := by omega
    have hdlen : (slice.drop (r.2 - c)).length = e - r.2 := by
      rw [List.length_drop]
      omega
    have hrec := ih r.2 e (slice.drop (r.2 - c)) h3 hdlen
    simp only [split_go, hcs]
    refine ⟨?_, ?_, ?_⟩
    · simp [hrec.1]
    · rw [List.map_cons, hrec.2.1, List.map_cons]
      congr 1
      rw [List.length_take_of_le (by omega), h1]
    · rw [List.flatten_cons, hrec.2.2, List.take_append_drop]

theorem run_ranges_flatten {T : Type} (g : UGraph) (fn : UGraph → Nat → T → T) :
    ∀ (P : List (Nat × Nat)) (c e : Nat) (slice : List T),
      chain_from c P e → slice.length = e - c →
      (((split_go P slice c).zip P).map (fun p => run_range g fn p.1 p.2)).flatten =
        mapFrom (fn g) c slice := by
  intro P
  induction P with
  | nil =>
    intro c e slice hch hlen
    have hce : c = e := hch
    have h0 : slice.length = 0 := by omega
    rw [List.length_eq_zero.mp h0]
    rfl
  | cons r rs ih =>
    intro c e slice hch hlen
    obtain ⟨h1, h2, h3⟩ := hch
    have hre : r.2 ≤ e := chain_from_le h3
    have hcs : c + (r.2 - c) = r.2 := by omega
    have hdlen : (slice.drop (r.2 - c)).length = e - r.2 := by
      rw [List.length_drop]
      omega
    have htlen : (slice.take (r.2 - c)).length = r.2 - c :=
      List.length_take_of_le (by omega)
    simp only [split_go, hcs, List.zip_cons_cons, List.map_cons, List.flatten_cons]
    rw [ih r.2 e (slice.drop (r.2 - c)) h3 hdlen]
    have hrun : run_range g fn (slice.take (r.2 - c)) r =
        mapFrom (fn g) c (slice.take (r.2 - c)) := by
      unfold run_range
      have hw : r.2 - r.1 = r.2 - c := by rw [h1]
      rw [hw, List.drop_eq_nil_of_le (by rw [htlen]), List.append_nil,
        zip_range'_map_of_length (fn g) (slice.take (r.2 - c)) r.1 (r.2 - c) htlen, h1]
    rw [hrun]
    have happ := mapFrom_append (fn g) c (slice.take (r.2 - c)) (slice.drop (r.2 - c))
    rw [List.take_append_drop, htlen, hcs] at happ
    exact happ.symm

/-! ### Claim theorems -/

/-- C1: `to_degree_ordered` preserves the node count and the edge count, and
for every node `v` of the input with new id `u = id_map[v]`, the result has
`degree u = degree v` and `neighbors u` is the ascending-sorted multiset
`{ id_map[w] : w ∈ neighbors v }` (stated as: the result's neighbor list is
sorted and is a permutation of the mapped neighbor list). -/
theorem to_degree_ordered_contract (g : UGraph) (v : Nat) (hv : v < g.node_count) :
    (to_degree_ordered g).node_count = g.node_count ∧
      (to_degree_ordered g).edge_count = g.edge_count ∧
      (to_degree_ordered g).degree ((id_map g).getD v 0) = g.degree v ∧
      List.Sorted (· ≤ ·) ((to_degree_ordered g).neighbors ((id_map g).getD v 0)) ∧
      ((to_degree_ordered g).neighbors ((id_map g).getD v 0)).Perm
        ((g.neighbors v).map (fun w => (id_map g).getD w 0)) := by
  refine ⟨to_degree_ordered_node_count g, to_degree_ordered_edge_count g,
    relabel_degree_at g v hv, ?_, ?_⟩
  · rw [relabel_block_at g v hv]
    exact List.sorted_insertionSort _ _
  · rw [relabel_block_at g v hv]
    exact List.perm_insertionSort _ _

/-- Witness for C1 at the S6 graph and node 2. -/
theorem to_degree_ordered_contract_witness :
    (to_degree_ordered exampleS6).node_count = exampleS6.node_count ∧
      (to_degree_ordered exampleS6).edge_count = exampleS6.edge_count ∧
      (to_degree_ordered exampleS6).degree ((id_map exampleS6).getD 2 0) =
        exampleS6.degree 2 ∧
      List.Sorted (· ≤ ·)
        ((to_degree_ordered exampleS6).neighbors ((id_map exampleS6).getD 2 0)) ∧
      ((to_degree_ordered exampleS6).neighbors ((id_map exampleS6).getD 2 0)).Perm
        ((exampleS6.neighbors 2).map (fun w => (id_map exampleS6).getD w 0)) :=
  to_degree_ordered_contract exampleS6 2 (by decide)

/-- C2: `greedy_node_map_partition` computes exactly the single streaming
pass of the spec (§4.1), and on `cost x = x`, `n = 10`, `batch_size = 6`,
`max_batches = 3` it returns `[[0,4), [4,6), [6,10)]`. -/
theorem greedy_matches_spec_pass :
    (∀ (cost : Nat → Nat) (n batch_size max_batches : Nat),
        1 ≤ n → 1 ≤ batch_size → 1 ≤ max_batches →
        greedy_node_map_partition cost n batch_size max_batches =
          spec_greedy_partition cost n batch_size max_batches) ∧
      greedy_node_map_partition (fun x => x) 10 6 3 = [(0, 4), (4, 6), (6, 10)] := by
  refine ⟨?_, by decide⟩
  intro cost n batch maxb h1 h2 h3
  unfold greedy_node_map_partition spec_greedy_partition
  rw [List.range_eq_range']
  exact greedy_go_eq_spec_scan cost n batch maxb n 0 0 0 []

/-- Witness for C2 at the S4 scenario. -/
theorem greedy_matches_spec_pass_witness :
    greedy_node_map_partition (fun x => x) 10 6 3 =
      spec_greedy_partition (fun x => x) 10 6 3 :=
  greedy_matches_spec_pass.1 (fun x => x) 10 6 3 (by decide) (by decide) (by decide)

/-- C3: for every undirected graph and `concurrency ≥ 1`, `degree_partition`
returns at most `concurrency` ranges, contiguous from `0` to `node_count`,
and every range except possibly the last has total degree at least
`⌈2·|E| / concurrency⌉`. -/
theorem degree_partition_bounds (g : UGraph) (c : Nat) (hc : 1 ≤ c) :
    (degree_partition g c).length ≤ c ∧
      chain_from 0 (degree_partition g c) g.node_count ∧
      ∀ r ∈ (degree_partition g c).dropLast,
        (2 * g.edge_count + c - 1) / c ≤ rangeCost g.degree r.1 r.2 := by
  unfold degree_partition greedy_node_map_partition
  by_cases hn : g.node_count = 0
  · rw [hn]
    simp only [List.range_zero, greedy_go]
    exact ⟨by simp, rfl, by simp⟩
  · have h1 : 1 ≤ g.node_count := by omega
    rw [List.range_eq_range']
    exact greedy_go_spec g.degree g.node_count ((2 * g.edge_count + c - 1) / c) c
      g.node_count 0 [] 0 0 h1 (by omega) (by omega) (rangeCost_self _ _).symm rfl
      (by simp) (by simpa using hc)

/-- Witness for C3 at the S5 multigraph with concurrency 2. -/
theorem degree_partition_bounds_witness :
    (degree_partition exampleS5 2).length ≤ 2 ∧
      chain_from 0 (degree_partition exampleS5 2) exampleS5.node_count ∧
      ∀ r ∈ (degree_partition exampleS5 2).dropLast,
        (2 * exampleS5.edge_count + 2 - 1) / 2 ≤ rangeCost exampleS5.degree r.1 r.2 :=
  degree_partition_bounds exampleS5 2 (by decide)

/-- C4: `for_each_node` fails with `InvalidNodeValues` exactly when the
buffer length differs from the node count; otherwise it succeeds and stores,
for every node `v`, the value the callback computes from `(g, v, initial
buffer[v])` — each node is visited exactly once with its own cell. -/
theorem for_each_node_contract {T : Type} (g : UGraph) (V : List T)
    (fn : UGraph → Nat → T → T) (d : T) :
    (for_each_node g V fn = Except.error Error.InvalidNodeValues ↔
        V.length ≠ g.node_count) ∧
      (V.length = g.node_count →
        ∃ W, for_each_node g V fn = Except.ok W ∧ W.length = g.node_count ∧
          ∀ v, v < g.node_count → W.getD v d = fn g v (V.getD v d)) := by
  unfold for_each_node
  by_cases h : V.length ≠ g.node_count
  · rw [if_pos h]
    exact ⟨⟨fun _ => h, fun _ => rfl⟩, fun hc => absurd hc h⟩
  · rw [if_neg h]
    push_neg at h
    refine ⟨⟨fun he => absurd he (by simp), fun hne => absurd h hne⟩,
      fun _ => ⟨_, rfl, ?_, ?_⟩⟩
    · rw [mapFrom_length]
      omega
    · intro v hv
      rw [mapFrom_getD _ 0 v V d (by omega)]
      simp

/-- Witness for C4: a successful traversal over a 4-element buffer. -/
theorem for_each_node_contract_witness :
    ∃ W, for_each_node exampleS6 [10, 20, 30, 40] (fun _ v t => t + v) = Except.ok W ∧
      W.length = exampleS6.node_count ∧
      ∀ v, v < exampleS6.node_count →
        W.getD v 0 = ([10, 20, 30, 40] : List Nat).getD v 0 + v :=
  (for_each_node_contract exampleS6 [10, 20, 30, 40] (fun _ v t => t + v) 0).2 (by decide)

/-- C5: on a well-formed partition and a buffer of length `node_count`,
`for_each_node_by_partition` succeeds and updates every node's cell exactly
once with the callback's value for that node (the cell at offset
`v - R.start` of the sub-buffer of the range holding `v` is cell `v` of the
buffer; each range is processed in ascending node order). -/
theorem for_each_node_by_partition_ok {T : Type} (g : UGraph) (P : List (Nat × Nat))
    (V : List T) (fn : UGraph → Nat → T → T) (d : T)
    (hch : chain_from 0 P g.node_count) (hlen : V.length = g.node_count) :
    ∃ W, for_each_node_by_partition g P V fn = Except.ok W ∧ W.length = g.node_count ∧
      ∀ v, v < g.node_count → W.getD v d = fn g v (V.getD v d) := by
  have hsum : (P.map (fun r => r.2 - r.1)).sum = g.node_count := by
    have := chain_from_sum hch
    omega
  have hflat : (((split_by_partition P V).zip P).map
      (fun p => run_range g fn p.1 p.2)).flatten = mapFrom (fn g) 0 V :=
    run_ranges_flatten g fn P 0 g.node_count V hch (by omega)
  unfold for_each_node_by_partition
  rw [if_neg (by omega), if_neg (by omega)]
  refine ⟨_, rfl, ?_, ?_⟩
  · rw [hflat, mapFrom_length]
    omega
  · intro v hv
    rw [hflat, mapFrom_getD _ 0 v V d (by omega)]
    simp

/-- Witness for C5 at the S6 graph with the partition `[[0,2), [2,4)]`. -/
theorem for_each_node_by_partition_ok_witness :
    ∃ W, for_each_node_by_partition exampleS6 [(0, 2), (2, 4)] [10, 20, 30, 40]
        (fun _ v t => t + v) = Except.ok W ∧
      W.length = exampleS6.node_count ∧
      ∀ v, v < exampleS6.node_count →
        W.getD v 0 = ([10, 20, 30, 40] : List Nat).getD v 0 + v :=
  for_each_node_by_partition_ok exampleS6 [(0, 2), (2, 4)] [10, 20, 30, 40]
    (fun _ v t => t + v) 0 (by simp [chain_from, UGraph.node_count, exampleS6]) (by decide)

/-- C6: with a buffer of the right length, `for_each_node_by_partition`
fails with `InvalidPartitioning` exactly when the partition's range widths
do not sum to `node_count`; on that failure the traversal is not started
(the result does not depend on the callback). -/
theorem for_each_node_by_partition_invalid_iff {T : Type} (g : UGraph)
    (P : List (Nat × Nat)) (V : List T) (fn : UGraph → Nat → T → T)
    (hwf : ∀ r ∈ P, r.1 ≤ r.2) (hlen : V.length = g.node_count) :
    (for_each_node_by_partition g P V fn = Except.error Error.InvalidPartitioning ↔
        (P.map (fun r => r.2 - r.1)).sum ≠ g.node_count) ∧
      ((P.map (fun r => r.2 - r.1)).sum ≠ g.node_count →
        ∀ fn' : UGraph → Nat → T → T,
          for_each_node_by_partition g P V fn = for_each_node_by_partition g P V fn') := by
  unfold for_each_node_by_partition
  rw [if_neg (by omega)]
  by_cases hs : (P.map (fun r => r.2 - r.1)).sum ≠ g.node_count
  · rw [if_pos hs]
    refine ⟨⟨fun _ => hs, fun _ => rfl⟩, fun _ fn' => ?_⟩
    rw [if_neg (show ¬(V.length ≠ g.node_count) by omega), if_pos hs]
  · rw [if_neg hs]
    exact ⟨⟨fun he => absurd he (by simp), fun hne => absurd hne hs⟩,
      fun hne => absurd hne hs⟩

/-- Witness for C6 (scenario S8): a partition whose widths sum to
`node_count - 1` is rejected with `InvalidPartitioning`. -/
theorem for_each_node_by_partition_invalid_witness :
    for_each_node_by_partition exampleS6 [(0, 3)] [0, 0, 0, 0]
      (fun (_ : UGraph) (v : Nat) (t : Nat) => t + v) =
      Except.error Error.InvalidPartitioning :=
  ((for_each_node_by_partition_invalid_iff exampleS6 [(0, 3)] [0, 0, 0, 0]
    (fun _ v t => t + v) (by decide) rfl).1).mpr (by decide)

/-- C7: on a partition (contiguous ranges from 0) and a buffer whose length
is the sum of the range widths, `split_by_partition` returns `|P|`
sub-buffers, the `i`-th of width `R_i.end - R_i.start`, whose concatenation
is the input buffer. -/
theorem split_by_partition_roundtrip {T : Type} (P : List (Nat × Nat)) (slice : List T)
    (n : Nat) (hch : chain_from 0 P n)
    (hlen : slice.length = (P.map (fun r => r.2 - r.1)).sum) :
    (split_by_partition P slice).length = P.length ∧
      (split_by_partition P slice).map List.length = P.map (fun r => r.2 - r.1) ∧
      (split_by_partition P slice).flatten = slice := by
  have hsum := chain_from_sum hch
  exact split_go_spec P 0 n slice hch (by omega)

/-- Witness for C7 at the partition `[[0,2), [2,5), [5,10)]` of a 10-element
buffer. -/
theorem split_by_partition_roundtrip_witness :
    (split_by_partition [(0, 2), (2, 5), (5, 10)]
        ([0, 1, 2, 3, 4, 5, 6, 7, 8, 9] : List Nat)).length =
      ([(0, 2), (2, 5), (5, 10)] : List (Nat × Nat)).length ∧
      (split_by_partition [(0, 2), (2, 5), (5, 10)]
          ([0, 1, 2, 3, 4, 5, 6, 7, 8, 9] : List Nat)).map List.length =
        ([(0, 2), (2, 5), (5, 10)] : List (Nat × Nat)).map (fun r => r.2 - r.1) ∧
      (split_by_partition [(0, 2), (2, 5), (5, 10)]
          ([0, 1, 2, 3, 4, 5, 6, 7, 8, 9] : List Nat)).flatten =
        [0, 1, 2, 3, 4, 5, 6, 7, 8, 9] :=
  split_by_partition_roundtrip [(0, 2), (2, 5), (5, 10)] [0, 1, 2, 3, 4, 5, 6, 7, 8, 9] 10
    (by simp [chain_from]) (by decide)

/-- C8: among equal degrees the larger old id receives the smaller new id
(the reversed natural lexicographic sort), and on the S6 graph the sorted
pairs, the new degree vector and the id map are exactly the pinned values. -/
theorem sort_tie_break_claim :
    (∀ (g : UGraph) (u v : Nat), u < v → v < g.node_count → g.degree u = g.degree v →
        (id_map g).getD v 0 < (id_map g).getD u 0) ∧
      sort_by_degree_desc exampleS6 = [(5, 2), (4, 3), (4, 1), (3, 0)] ∧
      (unzip_degrees_and_nodes (sort_by_degree_desc exampleS6)).1 = [5, 4, 4, 3] ∧
      id_map exampleS6 = [3, 2, 0, 1] :=
  ⟨tie_break_universal, by decide, by decide, by decide⟩

/-- Witness for C8: in S6 the equal-degree nodes 1 and 3 get new ids 2
and 1 respectively. -/
theorem sort_tie_break_claim_witness :
    (id_map exampleS6).getD 3 0 < (id_map exampleS6).getD 1 0 :=
  sort_tie_break_claim.1 exampleS6 1 3 (by decide) (by decide) (by decide)

/-- C9 counterexample: `to_degree_ordered` applied twice does NOT reproduce
the adjacency structure of a single application — on `exampleTie`
(a multigraph whose two equal-degree nodes have asymmetric neighborhoods)
the neighbor list of node 0 differs between the two. -/
theorem to_degree_ordered_not_idempotent :
    (to_degree_ordered (to_degree_ordered exampleTie)).neighbors 0 ≠
      (to_degree_ordered exampleTie).neighbors 0 := by decide

/-- C9 (amended): applying `to_degree_ordered` twice preserves the node
count, the edge count and the per-id degree sequence of a single
application (the full adjacency structure can differ, see the
counterexample). -/
theorem to_degree_ordered_twice_degrees (g : UGraph) (i : Nat) :
    (to_degree_ordered (to_degree_ordered g)).node_count =
        (to_degree_ordered g).node_count ∧
      (to_degree_ordered (to_degree_ordered g)).edge_count =
        (to_degree_ordered g).edge_count ∧
      (to_degree_ordered (to_degree_ordered g)).degree i = (to_degree_ordered g).degree i :=
  ⟨to_degree_ordered_node_count _, to_degree_ordered_edge_count _,
    degree_eq_of_map_length (adj_map_length_idem g) i⟩

/-- C10 counterexample: on one isolated node with concurrency 1 (node count
`n = 1 ≥ 1`, edge count 0, `c = 1 ≥ 1`) `degree_partition` DOES return the
single range `[0, n)`. -/
theorem degree_partition_no_edges_counterexample :
    1 ≤ exampleOneNode.node_count ∧ exampleOneNode.edge_count = 0 ∧ (1 : Nat) ≤ 1 ∧
      degree_partition exampleOneNode 1 = [(0, exampleOneNode.node_count)] := by decide

/-- C10 (amended): on an edgeless graph with `n ≥ 1` nodes and concurrency
`c ≥ 1` the batch size is 0 and `degree_partition` returns exactly
`min n c` ranges — singletons except possibly the last; whenever
`min n c ≥ 2` the result is not the single range `[0, n)`. -/
theorem degree_partition_no_edges_spec (g : UGraph) (c : Nat) (h1 : 1 ≤ g.node_count)
    (he : g.edge_count = 0) (hc : 1 ≤ c) :
    (2 * g.edge_count + c - 1) / c = 0 ∧
      degree_partition g c =
        (List.range (min g.node_count c - 1)).map (fun i => (i, i + 1)) ++
          [(min g.node_count c - 1, g.node_count)] ∧
      (2 ≤ min g.node_count c → degree_partition g c ≠ [(0, g.node_count)]) := by
  have hb : (2 * g.edge_count + c - 1) / c = 0 := by
    rw [he]
    simp only [Nat.mul_zero, Nat.zero_add]
    exact Nat.div_eq_of_lt (by omega)
  have hform : degree_partition g c =
      (List.range (min g.node_count c - 1)).map (fun i => (i, i + 1)) ++
        [(min g.node_count c - 1, g.node_count)] := by
    unfold degree_partition greedy_node_map_partition
    rw [hb, List.range_eq_range']
    rw [greedy_go_zero_batch g.degree g.node_count c g.node_count 0 [] h1 (by omega)]
    have hm : min (g.node_count - 1) (c - 1 - ([] : List (Nat × Nat)).length) =
        min g.node_count c - 1 := by
      simp only [List.length_nil, Nat.sub_zero]
      omega
    rw [hm]
    simp [List.range_eq_range']
  refine ⟨hb, hform, ?_⟩
  intro h2 hcontra
  rw [hform] at hcontra
  have hlen := congrArg List.length hcontra
  simp at hlen
  omega

/-- Witness for C10 (amended) at two isolated nodes with concurrency 3. -/
theorem degree_partition_no_edges_witness :
    (2 * exampleNoEdges.edge_count + 3 - 1) / 3 = 0 ∧
      degree_partition exampleNoEdges 3 =
        (List.range (min exampleNoEdges.node_count 3 - 1)).map (fun i => (i, i + 1)) ++
          [(min exampleNoEdges.node_count 3 - 1, exampleNoEdges.node_count)] ∧
      (2 ≤ min exampleNoEdges.node_count 3 →
        degree_partition exampleNoEdges 3 ≠ [(0, exampleNoEdges.node_count)]) :=
  degree_partition_no_edges_spec exampleNoEdges 3 (by decide) (by decide) (by decide)

end GraphOps
